import Mathlib

/-
Verification of the template-engine core (Interpreter pattern) of this
repository: `BehavioralPattern/Interpreter/Interpreter.go`.

Shallow embedding conventions:
  * Go strings are modelled as `List Char`.  All inputs that appear in the
    specification are ASCII, so the byte/rune distinction is immaterial.
  * `strings.Index(s, pat)` is modelled by `strIndex s pat : Option Nat`
    (Go's `-1` becomes `none`); it returns the least index at which `pat`
    occurs as a prefix of the corresponding suffix of `s`.
  * `strings.TrimSpace` is modelled by `goTrimSpace`, trimming the ASCII and
    Latin-1 white-space characters recognised by Go's `unicode.IsSpace`
    (higher Unicode white space does not occur in any input considered).
  * The `map[string]any` lookup context becomes `Ctx := List Char → Option
    Value` where `Value` covers the value kinds exercised by the program
    (strings and integers); `fmt.Sprintf "%v"` becomes `fmtValue`
    (strings as-is, integers in base 10 via `toString`).
  * The parsing loop of `ParseTemplate` advances an absolute cursor `index`
    and works entirely on the suffix `tmpl[index:]`; the embedding
    `parseAux` recurses directly on that suffix.  A fuel parameter (any
    amount strictly larger than the suffix length, see
    `parseAux_fuel_irrel`) replaces Go's unbounded `for` loop so that the
    function is structurally recursive and executable by `decide`.
  * Go's slice expression `tmpl[index+startIndex+2 : index+startIndex+endIndex]`
    appears as `(s.drop (st + 2)).take (en - 2)` on the suffix `s`;
    `strIndex_close_ge_two` proves `2 ≤ en` whenever the slice is taken, so
    the truncated natural subtraction coincides with Go's arithmetic and the
    slice bounds are always legal.
-/

/-- The character `{` (written by code so that brace characters never appear
in string or character literals). -/
def lbrace : Char := Char.ofNat 123

/-- The character `}`. -/
def rbrace : Char := Char.ofNat 125

/-- The open token of a variable marker. -/
def openTok : List Char := [lbrace, lbrace]

/-- The close token of a variable marker. -/
def closeTok : List Char := [rbrace, rbrace]

/-- White space as trimmed by Go's `strings.TrimSpace` on Latin-1 input:
tab, newline, vertical tab, form feed, carriage return, space, NEL, NBSP. -/
def goIsSpace (c : Char) : Bool :=
  c = ' ' || c = Char.ofNat 9 || c = Char.ofNat 10 || c = Char.ofNat 11 ||
  c = Char.ofNat 12 || c = Char.ofNat 13 || c = Char.ofNat 133 || c = Char.ofNat 160

/-- `strings.TrimSpace`: drop white space from both ends. -/
def goTrimSpace (s : List Char) : List Char :=
  ((s.dropWhile goIsSpace).reverse.dropWhile goIsSpace).reverse

/-- `strings.Index s pat`: the least index at which `pat` occurs in `s`
(`none` for Go's `-1`). -/
def strIndex (s pat : List Char) : Option Nat :=
  if pat.isPrefixOf s then some 0
  else
    match s with
    | [] => none
    | _ :: t => (strIndex t pat).map (fun k => k + 1)

/-- The value kinds stored in the `map[string]any` context by this program. -/
inductive Value where
  | str (s : List Char)
  | int (n : Int)
deriving DecidableEq

/-- `fmt.Sprintf "%v" v`: strings unchanged, integers in base 10. -/
def fmtValue : Value → List Char
  | .str s => s
  | .int n => (toString n).data

/-- The lookup context (`Context.Data` with Go's comma-ok map access). -/
def Ctx : Type := List Char → Option Value

/-- The two `Node` variants: `TextNode` (literal text) and `VarNode`
(variable reference). -/
inductive Node where
  | text (content : List Char)
  | var (key : List Char)
deriving DecidableEq

/-- `Node.Interpreter`: `TextNode` returns its content; `VarNode` looks up
its key and formats the value, or returns the empty string on a miss. -/
def Node.Interpreter (n : Node) (ctx : Ctx) : List Char :=
  match n with
  | .text c => c
  | .var k =>
    match ctx k with
    | none => []
    | some v => fmtValue v

/-- The parsed template: an ordered list of nodes. -/
structure Template where
  tree : List Node
deriving DecidableEq

/-- The loop body of `ParseTemplate`, recursing on the unscanned suffix.
`fuel` only bounds the number of loop iterations; any fuel strictly larger
than the suffix length gives the same result (`parseAux_fuel_irrel`). -/
def parseAux : Nat → List Char → List Node
  | 0, _ => []
  | fuel + 1, s =>
    match strIndex s openTok with
    | none => [Node.text s]
    | some st =>
      match strIndex (s.drop st) closeTok with
      | none => [Node.text (s.take st)]
      | some en =>
        Node.text (s.take st) ::
          Node.var (goTrimSpace ((s.drop (st + 2)).take (en - 2))) ::
          parseAux fuel (s.drop (st + en + 2))

/-- `ParseTemplate`: parse a template string into a `Template`. -/
def ParseTemplate (tmpl : List Char) : Template :=
  ⟨parseAux (tmpl.length + 1) tmpl⟩

/-- `Template.Interpreter`: concatenate the interpretation of every node. -/
def Template.Interpreter (t : Template) (ctx : Ctx) : List Char :=
  t.tree.foldl (fun s node => s ++ node.Interpreter ctx) []

/-- `pat` occurs in `s` at position `i`. -/
def occursAt (pat s : List Char) (i : Nat) : Bool :=
  pat.isPrefixOf (s.drop i)

/-- Every open token in `s` has a later close token. -/
def wellFormed (s : List Char) : Prop :=
  ∀ i < s.length, occursAt openTok s i = true →
    ∃ j < s.length, i < j ∧ occursAt closeTok s j = true

/-- An open token at `i` with no later close token anywhere in `s`. -/
def unmatchedAt (s : List Char) (i : Nat) : Prop :=
  occursAt openTok s i = true ∧
    ∀ j < s.length, i < j → occursAt closeTok s j = false

instance (s : List Char) : Decidable (wellFormed s) := by
  unfold wellFormed; infer_instance

instance (s : List Char) (i : Nat) : Decidable (unmatchedAt s i) := by
  unfold unmatchedAt; infer_instance

/-- Total length of the literal text carried by the nodes. -/
def literalTotal (l : List Node) : Nat :=
  (l.map fun n =>
    match n with
    | .text t => t.length
    | .var _ => 0).sum

/-- The keys of the reference nodes, in order. -/
def refKeys (l : List Node) : List (List Char) :=
  l.filterMap fun n =>
    match n with
    | .var k => some k
    | .text _ => none

/-- Strict alternation of node kinds; the flag records whether a literal
(`true`) or a reference (`false`) is expected next. -/
def alt : Bool → List Node → Bool
  | _, [] => true
  | true, .text _ :: l => alt false l
  | false, .var _ :: l => alt true l
  | _, _ => false

/-- A list whose `isPrefixOf` check succeeds is no longer than its host. -/
lemma pref_length_le : ∀ (p t : List Char), p.isPrefixOf t = true → p.length ≤ t.length := by
  intro p
  induction p with
  | nil => intro t _; simp
  | cons a p ih =>
    intro t h
    cases t with
    | nil => simp [List.isPrefixOf] at h
    | cons b t =>
      simp only [List.isPrefixOf, Bool.and_eq_true] at h
      simpa using ih t h.2

/-- A two-character pattern that is a prefix forces the first two elements. -/
lemma pref_two_shape (a b : Char) :
    ∀ t : List Char, [a, b].isPrefixOf t = true → ∃ r, t = a :: b :: r := by
  intro t h
  cases t with
  | nil => simp [List.isPrefixOf] at h
  | cons x t =>
    cases t with
    | nil => simp [List.isPrefixOf] at h
    | cons y t =>
      simp only [List.isPrefixOf, Bool.and_eq_true, beq_iff_eq] at h
      obtain ⟨hx, hy, -⟩ := h
      exact ⟨t, by rw [hx, hy]⟩

/-- Being a prefix of a `take` implies being a prefix of the whole list. -/
lemma pref_of_pref_take : ∀ (p t : List Char) (m : Nat),
    p.isPrefixOf (t.take m) = true → p.isPrefixOf t = true := by
  intro p
  induction p with
  | nil => intro t m _; simp [List.isPrefixOf]
  | cons a p ih =>
    intro t m h
    cases t with
    | nil =>
      simp only [List.take_nil, List.isPrefixOf] at h
      exact Bool.noConfusion h
    | cons b t =>
      cases m with
      | zero => simp [List.isPrefixOf] at h
      | succ m =>
        simp only [List.take_succ_cons, List.isPrefixOf, Bool.and_eq_true] at h ⊢
        exact ⟨h.1, ih t m h.2⟩

/-- A prefix short enough survives truncation by `take`. -/
lemma pref_take_of_len : ∀ (p t : List Char) (m : Nat),
    p.isPrefixOf t = true → p.length ≤ m → p.isPrefixOf (t.take m) = true := by
  intro p
  induction p with
  | nil => intro t m _ _; simp [List.isPrefixOf]
  | cons a p ih =>
    intro t m h hm
    cases t with
    | nil =>
      simp only [List.isPrefixOf] at h
      exact Bool.noConfusion h
    | cons b t =>
      cases m with
      | zero => simp at hm
      | succ m =>
        simp only [List.isPrefixOf, Bool.and_eq_true] at h
        simp only [List.length_cons] at hm
        simp only [List.take_succ_cons, List.isPrefixOf, Bool.and_eq_true]
        exact ⟨h.1, ih t m h.2 (by omega)⟩

/-- `strIndex` hit: the pattern occurs at the returned index. -/
lemma strIndex_occ : ∀ (s pat : List Char) (i : Nat),
    strIndex s pat = some i → occursAt pat s i = true := by
  intro s
  induction s with
  | nil =>
    intro pat i h
    unfold strIndex at h
    by_cases hp : pat.isPrefixOf ([] : List Char) = true
    · rw [if_pos hp] at h
      cases h
      exact hp
    · rw [if_neg hp] at h
      cases h
  | cons a t ih =>
    intro pat i h
    unfold strIndex at h
    by_cases hp : pat.isPrefixOf (a :: t) = true
    · rw [if_pos hp] at h
      cases h
      exact hp
    · rw [if_neg hp] at h
      change Option.map (fun k => k + 1) (strIndex t pat) = _ at h
      cases hs : strIndex t pat with
      | none => rw [hs] at h; cases h
      | some j =>
        rw [hs] at h
        simp at h
        subst h
        exact ih pat j hs

/-- `strIndex` returns the first occurrence: nothing occurs earlier. -/
lemma strIndex_least : ∀ (s pat : List Char) (i : Nat),
    strIndex s pat = some i → ∀ j, j < i → occursAt pat s j = false := by
  intro s
  induction s with
  | nil =>
    intro pat i h j hj
    unfold strIndex at h
    by_cases hp : pat.isPrefixOf ([] : List Char) = true
    · rw [if_pos hp] at h; cases h; omega
    · rw [if_neg hp] at h; cases h
  | cons a t ih =>
    intro pat i h j hj
    unfold strIndex at h
    by_cases hp : pat.isPrefixOf (a :: t) = true
    · rw [if_pos hp] at h; cases h; omega
    · rw [if_neg hp] at h
      change Option.map (fun k => k + 1) (strIndex t pat) = _ at h
      cases hs : strIndex t pat with
      | none => rw [hs] at h; cases h
      | some k =>
        rw [hs] at h
        simp at h
        subst h
        cases j with
        | zero => exact Bool.eq_false_iff.mpr hp
        | succ j => exact ih pat k hs j (by omega)

/-- `strIndex` miss: the pattern occurs nowhere. -/
lemma strIndex_none : ∀ (s pat : List Char),
    strIndex s pat = none → ∀ j, occursAt pat s j = false := by
  intro s
  induction s with
  | nil =>
    intro pat h j
    unfold strIndex at h
    by_cases hp : pat.isPrefixOf ([] : List Char) = true
    · rw [if_pos hp] at h; cases h
    · cases j with
      | zero => exact Bool.eq_false_iff.mpr hp
      | succ j => exact Bool.eq_false_iff.mpr hp
  | cons a t ih =>
    intro pat h j
    unfold strIndex at h
    by_cases hp : pat.isPrefixOf (a :: t) = true
    · rw [if_pos hp] at h; cases h
    · rw [if_neg hp] at h
      change Option.map (fun k => k + 1) (strIndex t pat) = _ at h
      cases hs : strIndex t pat with
      | some k => rw [hs] at h; cases h
      | none =>
        cases j with
        | zero => exact Bool.eq_false_iff.mpr hp
        | succ j => exact ih pat hs j

/-- Converse characterisation: an occurrence with nothing earlier is exactly
what `strIndex` returns. -/
lemma strIndex_of_occ (s pat : List Char) (i : Nat)
    (hocc : occursAt pat s i = true)
    (hmin : ∀ j, j < i → occursAt pat s j = false) :
    strIndex s pat = some i := by
  cases h : strIndex s pat with
  | none => exact absurd (strIndex_none s pat h i) (by simp [hocc])
  | some q =>
    rcases Nat.lt_trichotomy q i with hlt | heq | hgt
    · exact absurd (strIndex_occ s pat q h) (by simp [hmin q hlt])
    · rw [heq]
    · exact absurd hocc (by simp [strIndex_least s pat q h i hgt])

/-- An occurrence index plus the pattern length stays within the string. -/
lemma occ_add_length_le (s pat : List Char) (i : Nat) (hne : pat ≠ [])
    (h : occursAt pat s i = true) : i + pat.length ≤ s.length := by
  unfold occursAt at h
  have hlen := pref_length_le pat (s.drop i) h
  rw [List.length_drop] at hlen
  by_cases hi : i ≤ s.length
  · omega
  · exfalso
    have : s.drop i = [] := List.drop_eq_nil_of_le (by omega)
    rw [this] at h
    cases pat with
    | nil => exact hne rfl
    | cons a p => simp [List.isPrefixOf] at h

/-- Shift an occurrence through `List.drop`. -/
lemma occ_drop (s pat : List Char) (k i : Nat) :
    occursAt pat (s.drop k) i = occursAt pat s (k + i) := by
  unfold occursAt
  rw [List.drop_drop]

/-- An occurrence inside a truncation is an occurrence in the string. -/
lemma occ_of_occ_take (s pat : List Char) (m i : Nat)
    (h : occursAt pat (s.take m) i = true) : occursAt pat s i = true := by
  unfold occursAt at h ⊢
  rw [List.drop_take] at h
  exact pref_of_pref_take pat (s.drop i) (m - i) h

/-- An occurrence that fits below `m` survives truncation to `m` characters. -/
lemma occ_take_of_occ (s pat : List Char) (m i : Nat)
    (h : occursAt pat s i = true) (hm : i + pat.length ≤ m) :
    occursAt pat (s.take m) i = true := by
  unfold occursAt at h ⊢
  rw [List.drop_take]
  exact pref_take_of_len pat (s.drop i) (m - i) h (by omega)

/-- `strIndex` is stable under truncation beyond the found occurrence. -/
lemma strIndex_take (s pat : List Char) (m i : Nat)
    (h : strIndex s pat = some i) (hm : i + pat.length ≤ m) :
    strIndex (s.take m) pat = some i := by
  refine strIndex_of_occ (s.take m) pat i
    (occ_take_of_occ s pat m i (strIndex_occ s pat i h) hm) ?_
  intro j hj
  have := strIndex_least s pat i h j hj
  cases hq : occursAt pat (s.take m) j with
  | false => rfl
  | true => exact absurd (occ_of_occ_take s pat m j hq) (by simp [this])

/-- The close-token search region starts with the open token, so a found
close token lies at offset at least `2`, and the whole marker fits inside
the string. -/
lemma strIndex_close_ge_two (s : List Char) (st en : Nat)
    (hop : strIndex s openTok = some st)
    (hcl : strIndex (s.drop st) closeTok = some en) :
    2 ≤ en ∧ st + en + 2 ≤ s.length := by
  have hocc : openTok.isPrefixOf (s.drop st) = true := strIndex_occ s openTok st hop
  have hcocc : closeTok.isPrefixOf ((s.drop st).drop en) = true :=
    strIndex_occ (s.drop st) closeTok en hcl
  obtain ⟨r, hr⟩ := pref_two_shape lbrace lbrace (s.drop st) hocc
  have hen : 2 ≤ en := by
    rcases en with _ | _ | en
    · exfalso
      rw [hr] at hcocc
      simp only [List.drop_zero, closeTok, List.isPrefixOf, Bool.and_eq_true,
        beq_iff_eq] at hcocc
      exact absurd hcocc.1 (by decide)
    · exfalso
      rw [hr] at hcocc
      simp only [List.drop_succ_cons, List.drop_zero, closeTok, List.isPrefixOf,
        Bool.and_eq_true, beq_iff_eq] at hcocc
      exact absurd hcocc.1 (by decide)
    · omega
  have h1 : st + openTok.length ≤ s.length :=
    occ_add_length_le s openTok st (by simp [openTok]) (strIndex_occ s openTok st hop)
  have h2 : en + closeTok.length ≤ (s.drop st).length :=
    occ_add_length_le (s.drop st) closeTok en (by simp [closeTok]) hcocc
  constructor
  · exact hen
  · have h3 : (s.drop st).length = s.length - st := List.length_drop st s
    simp only [openTok, closeTok, List.length_cons, List.length_nil] at h1 h2
    omega

/-- The fuel of `parseAux` is irrelevant once it exceeds the input length. -/
lemma parseAux_fuel_irrel : ∀ (f1 : Nat) (s : List Char) (f2 : Nat),
    s.length < f1 → s.length < f2 → parseAux f1 s = parseAux f2 s := by
  intro f1
  induction f1 with
  | zero => intro s f2 h1 _; omega
  | succ f1 ih =>
    intro s f2 h1 h2
    cases f2 with
    | zero => omega
    | succ f2 =>
      cases hop : strIndex s openTok with
      | none => simp only [parseAux, hop]
      | some st =>
        cases hcl : strIndex (s.drop st) closeTok with
        | none => simp only [parseAux, hop, hcl]
        | some en =>
          obtain ⟨hen, hlen⟩ := strIndex_close_ge_two s st en hop hcl
          have hdrop : (s.drop (st + en + 2)).length = s.length - (st + en + 2) :=
            List.length_drop (st + en + 2) s
          simp only [parseAux, hop, hcl]
          rw [ih (s.drop (st + en + 2)) f2 (by omega) (by omega)]

/-- Unfold `ParseTemplate` at any sufficiently large fuel. -/
lemma ParseTemplate_eq_parseAux (s : List Char) (fuel : Nat) (h : s.length < fuel) :
    (ParseTemplate s).tree = parseAux fuel s :=
  parseAux_fuel_irrel (s.length + 1) s fuel (by omega) h

/-- Scan step, case 1: no open token; the whole input is one literal. -/
lemma parse_no_open (s : List Char) (h : strIndex s openTok = none) :
    (ParseTemplate s).tree = [Node.text s] := by
  show parseAux (s.length + 1) s = _
  simp only [parseAux, h]

/-- Scan step, case 2: open token without a later close token; the literal
before the open token is emitted and the rest is dropped. -/
lemma parse_no_close (s : List Char) (st : Nat)
    (hop : strIndex s openTok = some st)
    (hcl : strIndex (s.drop st) closeTok = none) :
    (ParseTemplate s).tree = [Node.text (s.take st)] := by
  show parseAux (s.length + 1) s = _
  simp only [parseAux, hop, hcl]

/-- Scan step, case 3: a full marker; a literal and a reference node are
emitted and the scan continues past the close token. -/
lemma parse_step (s : List Char) (st en : Nat)
    (hop : strIndex s openTok = some st)
    (hcl : strIndex (s.drop st) closeTok = some en) :
    (ParseTemplate s).tree =
      Node.text (s.take st) ::
        Node.var (goTrimSpace ((s.drop (st + 2)).take (en - 2))) ::
        (ParseTemplate (s.drop (st + en + 2))).tree := by
  obtain ⟨hen, hlen⟩ := strIndex_close_ge_two s st en hop hcl
  have hdrop : (s.drop (st + en + 2)).length = s.length - (st + en + 2) :=
    List.length_drop (st + en + 2) s
  show parseAux (s.length + 1) s = _
  simp only [parseAux, hop, hcl]
  rw [parseAux_fuel_irrel s.length (s.drop (st + en + 2))
    ((s.drop (st + en + 2)).length + 1) (by omega) (by omega)]
  rfl

/-- `Template.Interpreter` with an arbitrary accumulator. -/
lemma interp_foldl_acc (ctx : Ctx) : ∀ (l : List Node) (init : List Char),
    l.foldl (fun s node => s ++ node.Interpreter ctx) init =
      init ++ l.foldl (fun s node => s ++ node.Interpreter ctx) [] := by
  intro l
  induction l with
  | nil => intro init; simp
  | cons n l ih =>
    intro init
    simp only [List.foldl_cons]
    rw [ih (init ++ n.Interpreter ctx), ih ([] ++ n.Interpreter ctx)]
    simp [List.append_assoc]

/-- Rendering the empty node list gives the empty string. -/
lemma interp_nil (ctx : Ctx) : Template.Interpreter ⟨[]⟩ ctx = [] := rfl

/-- Rendering a node list is the node's output followed by the rest. -/
lemma interp_cons (ctx : Ctx) (n : Node) (l : List Node) :
    Template.Interpreter ⟨n :: l⟩ ctx =
      n.Interpreter ctx ++ Template.Interpreter ⟨l⟩ ctx := by
  show (n :: l).foldl (fun s node => s ++ node.Interpreter ctx) [] = _
  simp only [List.foldl_cons]
  rw [interp_foldl_acc ctx l ([] ++ n.Interpreter ctx)]
  simp [Template.Interpreter]

/-- Structure of every parse result: non-empty, literal-headed, strictly
alternating, and literal-ended. -/
lemma parse_shape : ∀ (n : Nat) (s : List Char), s.length < n →
    (∃ c l, (ParseTemplate s).tree = Node.text c :: l) ∧
    alt true (ParseTemplate s).tree = true ∧
    (∃ c, (ParseTemplate s).tree.getLast? = some (Node.text c)) := by
  intro n
  induction n with
  | zero => intro s h; omega
  | succ n ih =>
    intro s h
    cases hop : strIndex s openTok with
    | none =>
      rw [parse_no_open s hop]
      exact ⟨⟨s, [], rfl⟩, by simp [alt], ⟨s, rfl⟩⟩
    | some st =>
      cases hcl : strIndex (s.drop st) closeTok with
      | none =>
        rw [parse_no_close s st hop hcl]
        exact ⟨⟨s.take st, [], rfl⟩, by simp [alt], ⟨s.take st, rfl⟩⟩
      | some en =>
        obtain ⟨hen, hlen⟩ := strIndex_close_ge_two s st en hop hcl
        have hdrop : (s.drop (st + en + 2)).length = s.length - (st + en + 2) :=
          List.length_drop (st + en + 2) s
        obtain ⟨⟨c, l, hhead⟩, halt, cl, hlast⟩ := ih (s.drop (st + en + 2)) (by omega)
        rw [parse_step s st en hop hcl]
        refine ⟨⟨_, _, rfl⟩, ?_, ?_⟩
        · simp only [alt]
          exact halt
        · rw [hhead] at hlast ⊢
          refine ⟨cl, ?_⟩
          rw [List.getLast?_cons_cons, List.getLast?_cons_cons]
          exact hlast

/-- The number of nodes is bounded by the input length plus one. -/
lemma parse_length_le : ∀ (n : Nat) (s : List Char), s.length < n →
    (ParseTemplate s).tree.length ≤ s.length + 1 := by
  intro n
  induction n with
  | zero => intro s h; omega
  | succ n ih =>
    intro s h
    cases hop : strIndex s openTok with
    | none => rw [parse_no_open s hop]; simp
    | some st =>
      cases hcl : strIndex (s.drop st) closeTok with
      | none => rw [parse_no_close s st hop hcl]; simp
      | some en =>
        obtain ⟨hen, hlen⟩ := strIndex_close_ge_two s st en hop hcl
        have hdrop : (s.drop (st + en + 2)).length = s.length - (st + en + 2) :=
          List.length_drop (st + en + 2) s
        have hrec := ih (s.drop (st + en + 2)) (by omega)
        rw [parse_step s st en hop hcl]
        simp only [List.length_cons]
        omega

/-- The length of a render is the literal total plus the contribution of
each reference node's lookup. -/
lemma interp_length (ctx : Ctx) : ∀ l : List Node,
    (Template.Interpreter ⟨l⟩ ctx).length =
      literalTotal l +
        ((refKeys l).map fun k => ((Node.var k).Interpreter ctx).length).sum := by
  intro l
  induction l with
  | nil => simp [interp_nil, literalTotal, refKeys]
  | cons n l ih =>
    rw [interp_cons, List.length_append, ih]
    cases n with
    | text c =>
      simp only [literalTotal, refKeys, List.map_cons, List.sum_cons,
        List.filterMap_cons, Node.Interpreter]
      omega
    | var k =>
      simp only [literalTotal, refKeys, List.map_cons, List.sum_cons,
        List.filterMap_cons]
      omega

/-- `strIndex` at an immediate match. -/
lemma strIndex_pos (s pat : List Char) (h : pat.isPrefixOf s = true) :
    strIndex s pat = some 0 := by
  unfold strIndex
  rw [h]
  simp

/-- `strIndex` stepping over a non-matching head. -/
lemma strIndex_cons_neg (a : Char) (t pat : List Char)
    (h : pat.isPrefixOf (a :: t) = false) :
    strIndex (a :: t) pat = (strIndex t pat).map (fun k => k + 1) := by
  conv_lhs => unfold strIndex
  rw [h]
  simp

/-- A list is a prefix of itself followed by anything. -/
lemma pref_append_self : ∀ (p x : List Char), p.isPrefixOf (p ++ x) = true := by
  intro p
  induction p with
  | nil => intro x; simp [List.isPrefixOf]
  | cons a p ih =>
    intro x
    simp [List.isPrefixOf, ih x]

/-- Taking the length of the left part of an append returns it. -/
lemma take_append_self : ∀ (a b : List Char), (a ++ b).take a.length = a := by
  intro a
  induction a with
  | nil => intro b; rfl
  | cons c a ih =>
    intro b
    simp only [List.cons_append, List.length_cons, List.take_succ_cons]
    rw [ih b]

/-- Dropping the left part of an append and `k` more. -/
lemma drop_append_plus : ∀ (a b : List Char) (k : Nat),
    (a ++ b).drop (a.length + k) = b.drop k := by
  intro a
  induction a with
  | nil => intro b k; simp
  | cons c a ih =>
    intro b k
    simp only [List.cons_append, List.length_cons]
    have hidx : a.length + 1 + k = (a.length + k) + 1 := by omega
    rw [hidx, List.drop_succ_cons, ih b k]

/-- The first close token of `l ++ rbrace rbrace rest` sits right after `l`
when `l` contains no close brace. -/
lemma strIndex_append_close (rest : List Char) :
    ∀ l : List Char, (∀ c ∈ l, c ≠ rbrace) →
      strIndex (l ++ rbrace :: rbrace :: rest) closeTok = some l.length := by
  intro l
  induction l with
  | nil =>
    intro _
    simp only [List.nil_append, List.length_nil]
    exact strIndex_pos _ closeTok (by simp [closeTok, List.isPrefixOf])
  | cons c l ih =>
    intro h
    have hc : c ≠ rbrace := h c (by simp)
    have hnp : closeTok.isPrefixOf (c :: (l ++ rbrace :: rbrace :: rest)) = false := by
      cases hp : closeTok.isPrefixOf (c :: (l ++ rbrace :: rbrace :: rest)) with
      | false => rfl
      | true =>
        obtain ⟨r, hr⟩ := pref_two_shape rbrace rbrace _ hp
        exact absurd (List.head_eq_of_cons_eq hr) hc
    rw [List.cons_append, strIndex_cons_neg c _ closeTok hnp,
      ih (fun d hd => h d (by simp [hd]))]
    simp

/-- Absorbing an all-satisfying block on the left of `dropWhile`. -/
lemma dw_all (p : Char → Bool) : ∀ (sp l : List Char),
    (∀ c ∈ sp, p c = true) → (sp ++ l).dropWhile p = l.dropWhile p := by
  intro sp
  induction sp with
  | nil => intro l _; rfl
  | cons c sp ih =>
    intro l h
    have hc : p c = true := h c (by simp)
    simp only [List.cons_append, List.dropWhile_cons, hc, if_true]
    exact ih l (fun d hd => h d (by simp [hd]))

/-- `dropWhile` empties an all-satisfying list. -/
lemma dw_all_nil (p : Char → Bool) (sp : List Char)
    (h : ∀ c ∈ sp, p c = true) : sp.dropWhile p = [] := by
  have := dw_all p sp [] h
  simpa using this

/-- `dropWhile` over an append, split by whether the left part empties. -/
lemma dw_split (p : Char → Bool) : ∀ (a b : List Char),
    (a ++ b).dropWhile p =
      if a.dropWhile p = [] then b.dropWhile p else a.dropWhile p ++ b := by
  intro a
  induction a with
  | nil => intro b; simp
  | cons c a ih =>
    intro b
    cases hp : p c with
    | true => simp [List.dropWhile_cons, hp, ih b]
    | false => simp [List.dropWhile_cons, hp]

/-- Surrounding white space does not change the trimmed key. -/
lemma trim_absorb (sp1 sp2 key : List Char)
    (h1 : ∀ c ∈ sp1, goIsSpace c = true) (h2 : ∀ c ∈ sp2, goIsSpace c = true) :
    goTrimSpace (sp1 ++ key ++ sp2) = goTrimSpace key := by
  unfold goTrimSpace
  have e1 : ((sp1 ++ key ++ sp2).dropWhile goIsSpace) =
      (key ++ sp2).dropWhile goIsSpace := by
    rw [List.append_assoc]
    exact dw_all goIsSpace sp1 (key ++ sp2) h1
  rw [e1, dw_split goIsSpace key sp2]
  by_cases hk : key.dropWhile goIsSpace = []
  · rw [if_pos hk, hk, dw_all_nil goIsSpace sp2 h2]
  · rw [if_neg hk, List.reverse_append,
      dw_all goIsSpace sp2.reverse (key.dropWhile goIsSpace).reverse
        (fun c hc => h2 c (List.mem_reverse.mp hc))]

/-- White space is never a close brace. -/
lemma space_ne_rbrace (c : Char) (h : goIsSpace c = true) : c ≠ rbrace := by
  intro he
  subst he
  exact absurd h (by decide)

/-- Parsing `{{mid}}rest` where `mid` has no close brace: an empty literal,
a reference carrying the trimmed interior, and the parse of `rest`. -/
lemma parse_marker (mid rest : List Char) (hmid : ∀ c ∈ mid, c ≠ rbrace) :
    (ParseTemplate (openTok ++ mid ++ closeTok ++ rest)).tree =
      Node.text [] :: Node.var (goTrimSpace mid) :: (ParseTemplate rest).tree := by
  have hshape : openTok ++ mid ++ closeTok ++ rest =
      (lbrace :: lbrace :: mid) ++ rbrace :: rbrace :: rest := by
    simp [openTok, closeTok]
  have hall : ∀ c ∈ lbrace :: lbrace :: mid, c ≠ rbrace := by
    intro c hc
    rcases List.mem_cons.mp hc with h | hc2
    · subst h; decide
    · rcases List.mem_cons.mp hc2 with h | hc3
      · subst h; decide
      · exact hmid c hc3
  have hop : strIndex (openTok ++ mid ++ closeTok ++ rest) openTok = some 0 := by
    apply strIndex_pos
    rw [List.append_assoc, List.append_assoc]
    exact pref_append_self openTok (mid ++ (closeTok ++ rest))
  have hcl : strIndex ((openTok ++ mid ++ closeTok ++ rest).drop 0) closeTok =
      some (mid.length + 2) := by
    rw [List.drop_zero, hshape]
    have hfound := strIndex_append_close rest (lbrace :: lbrace :: mid) hall
    have hlen2 : (lbrace :: lbrace :: mid).length = mid.length + 2 := by
      simp only [List.length_cons]
    rw [hlen2] at hfound
    exact hfound
  rw [parse_step (openTok ++ mid ++ closeTok ++ rest) 0 (mid.length + 2) hop hcl,
    hshape]
  have hidx : 0 + (mid.length + 2) + 2 = (lbrace :: lbrace :: mid).length + 2 := by
    simp only [List.length_cons]
    omega
  rw [hidx, drop_append_plus (lbrace :: lbrace :: mid) (rbrace :: rbrace :: rest) 2]
  have hkey : (((lbrace :: lbrace :: mid) ++ rbrace :: rbrace :: rest).drop (0 + 2)).take
      (mid.length + 2 - 2) = mid := by
    simp only [Nat.zero_add, Nat.add_sub_cancel, List.cons_append,
      List.drop_succ_cons, List.drop_zero]
    exact take_append_self mid (rbrace :: rbrace :: rest)
  rw [hkey]
  simp [List.drop_succ_cons]

/-- The template of the demonstration `main`:
`Hello, {{ Name }}! You are {{Age}} years old.` -/
def tmplMain : List Char :=
  "Hello, \x7b\x7b Name \x7d\x7d! You are \x7b\x7bAge\x7d\x7d years old.".data

/-- The lookup context of the demonstration `main`. -/
def ctxMain : Ctx := fun k =>
  if k = "Name".data then some (Value.str "fengfeng".data)
  else if k = "Age".data then some (Value.int 21)
  else none

/-- A small well-formed template (`a{{k}}b`) used as a concrete witness. -/
def tmplW1 : List Char := "a\x7b\x7bk\x7d\x7db".data

/-- A context defining only the key `k`. -/
def ctxW1 : Ctx := fun k =>
  if k = "k".data then some (Value.str "zz".data) else none

-- Sanity checks of the executable embedding (concrete evaluation).
example : goTrimSpace (' ' :: 'a' :: ' ' :: []) = ['a'] := by decide
example : strIndex ('a' :: 'b' :: []) ['b'] = some 1 := by decide
example : strIndex ('a' :: 'b' :: []) ['c'] = none := by decide
example :
    (ParseTemplate "ab".data).tree = [Node.text ('a' :: 'b' :: [])] := by decide

/-- C1: for a well-formed template and a lookup context containing every
referenced key, the length of the rendered string is the total length of
the literal text plus the sum of the formatted lengths of the resolved
values. -/
theorem claim_C1_render_length (tmpl : List Char) (ctx : Ctx)
    (_hwf : wellFormed tmpl)
    (hkeys : ∀ k ∈ refKeys (ParseTemplate tmpl).tree, (ctx k).isSome = true) :
    ((ParseTemplate tmpl).Interpreter ctx).length =
      literalTotal (ParseTemplate tmpl).tree +
        ((refKeys (ParseTemplate tmpl).tree).map
          fun k => (fmtValue ((ctx k).getD (Value.str []))).length).sum := by
  have hlen := interp_length ctx (ParseTemplate tmpl).tree
  have hmap :
      (refKeys (ParseTemplate tmpl).tree).map
          (fun k => ((Node.var k).Interpreter ctx).length) =
        (refKeys (ParseTemplate tmpl).tree).map
          (fun k => (fmtValue ((ctx k).getD (Value.str []))).length) := by
    apply List.map_congr_left
    intro k hk
    have hs := hkeys k hk
    cases hc : ctx k with
    | none => rw [hc] at hs; simp at hs
    | some v => simp [Node.Interpreter, hc]
  rw [hmap] at hlen
  exact hlen

/-- C1 witness: the theorem applied to the concrete template `a{{k}}b` and
a context binding `k`. -/
theorem claim_C1_witness :
    ((ParseTemplate tmplW1).Interpreter ctxW1).length =
      literalTotal (ParseTemplate tmplW1).tree +
        ((refKeys (ParseTemplate tmplW1).tree).map
          fun k => (fmtValue ((ctxW1 k).getD (Value.str []))).length).sum :=
  claim_C1_render_length tmplW1 ctxW1 (by decide) (by decide)

/-- C2: parsing `Hello, {{ Name }}! You are {{Age}} years old.` and
rendering it with `Name = "fengfeng"` and `Age = 21` yields exactly
`Hello, fengfeng! You are 21 years old.`, the integer in base 10. -/
theorem claim_C2_end_to_end :
    (ParseTemplate tmplMain).Interpreter ctxMain =
      "Hello, fengfeng! You are 21 years old.".data := by decide

/-- The empty lookup context (`{}` in the specification). -/
def emptyCtx : Ctx := fun _ => none

/-- The template `{{x}}`. -/
def tmplX : List Char := "\x7b\x7bx\x7d\x7d".data

/-- The template consisting of the single empty marker `{{}}`. -/
def tmplEmptyMarker : List Char := "\x7b\x7b\x7d\x7d".data

/-- A lookup context that binds the empty-string key to `"x"`. -/
def ctxEmptyKey : Ctx := fun k =>
  if k = [] then some (Value.str ['x']) else none

/-- C3: a template with no open-token occurrence parses to exactly one
literal node covering the whole input, and renders to the input unchanged
under every lookup context. -/
theorem claim_C3_no_marker (tmpl : List Char) (ctx : Ctx)
    (h : ∀ i < tmpl.length, occursAt openTok tmpl i = false) :
    (ParseTemplate tmpl).tree = [Node.text tmpl] ∧
      (ParseTemplate tmpl).Interpreter ctx = tmpl := by
  have hnone : strIndex tmpl openTok = none := by
    cases hs : strIndex tmpl openTok with
    | none => rfl
    | some i =>
      have hocc := strIndex_occ tmpl openTok i hs
      have hle := occ_add_length_le tmpl openTok i (by simp [openTok]) hocc
      have hilen : i < tmpl.length := by
        simp only [openTok, List.length_cons, List.length_nil] at hle
        omega
      exact absurd hocc (by simp [h i hilen])
  have htree := parse_no_open tmpl hnone
  refine ⟨htree, ?_⟩
  have hrw : (ParseTemplate tmpl).Interpreter ctx =
      Template.Interpreter ⟨[Node.text tmpl]⟩ ctx := by
    unfold Template.Interpreter
    rw [htree]
  rw [hrw, interp_cons, interp_nil]
  simp [Node.Interpreter]

/-- C3 witness: the empty-input instance (a single empty literal) and a
marker-free template, evaluated concretely. -/
theorem claim_C3_witness :
    (ParseTemplate "ab".data).tree = [Node.text "ab".data] ∧
      (ParseTemplate "ab".data).Interpreter ctxEmptyKey = "ab".data :=
  claim_C3_no_marker "ab".data ctxEmptyKey (by decide)

/-- C4: a reference node whose key is absent from the lookup context
renders to the empty string (a lookup miss is not an error), and in
particular `Render (Parse "\x7b\x7bx\x7d\x7d") \x7b\x7d` is the empty string. -/
theorem claim_C4_missing_key (k : List Char) (ctx : Ctx) (h : ctx k = none) :
    (Node.var k).Interpreter ctx = [] ∧
      (ParseTemplate tmplX).Interpreter emptyCtx = [] := by
  constructor
  · simp [Node.Interpreter, h]
  · decide

/-- C4 witness: the missing-key behaviour evaluated at the key `x` and the
empty context. -/
theorem claim_C4_witness :
    (Node.var ['x']).Interpreter emptyCtx = [] ∧
      (ParseTemplate tmplX).Interpreter emptyCtx = [] :=
  claim_C4_missing_key ['x'] emptyCtx rfl

/-- C7 counterexample: `{{}}` does produce a reference node with the empty
key, but it does not render to the empty string under *every* lookup
context: under a context binding the empty-string key to `"x"` it renders
to `"x"`. -/
theorem claim_C7_counterexample :
    (ParseTemplate tmplEmptyMarker).tree =
        [Node.text [], Node.var [], Node.text []] ∧
      (ParseTemplate tmplEmptyMarker).Interpreter ctxEmptyKey = ['x'] ∧
      ((ParseTemplate tmplEmptyMarker).Interpreter ctxEmptyKey = ([] : List Char)) = False := by
  refine ⟨by decide, by decide, eq_false (by decide)⟩

/-- C7 amended: `{{}}` produces a reference node carrying the empty-string
key, and under every lookup context in which the empty-string key is
absent that node renders to the empty string. -/
theorem claim_C7_amended (ctx : Ctx) (h : ctx [] = none) :
    (ParseTemplate tmplEmptyMarker).tree =
        [Node.text [], Node.var [], Node.text []] ∧
      (ParseTemplate tmplEmptyMarker).Interpreter ctx = [] := by
  have htree : (ParseTemplate tmplEmptyMarker).tree =
      [Node.text [], Node.var [], Node.text []] := by decide
  refine ⟨htree, ?_⟩
  have hrw : (ParseTemplate tmplEmptyMarker).Interpreter ctx =
      Template.Interpreter ⟨[Node.text [], Node.var [], Node.text []]⟩ ctx := by
    unfold Template.Interpreter
    rw [htree]
  rw [hrw, interp_cons, interp_cons, interp_cons, interp_nil]
  simp [Node.Interpreter, h]

/-- C7 amended witness: the amended claim applied to the empty context. -/
theorem claim_C7_witness :
    (ParseTemplate tmplEmptyMarker).tree =
        [Node.text [], Node.var [], Node.text []] ∧
      (ParseTemplate tmplEmptyMarker).Interpreter emptyCtx = [] :=
  claim_C7_amended emptyCtx rfl

/-- A context binding only the key `name`. -/
def ctxW6 : Ctx := fun k =>
  if k = "name".data then some (Value.str ['a']) else none

/-- C6: a marker whose interior surrounds the key with white space renders
exactly as the marker without the white space, for every key (containing no
close brace) and every lookup context; the key stored in the reference node
is the marker interior stripped of leading and trailing white space. -/
theorem claim_C6_whitespace_trim (sp1 sp2 key : List Char) (ctx : Ctx)
    (h1 : ∀ c ∈ sp1, goIsSpace c = true) (h2 : ∀ c ∈ sp2, goIsSpace c = true)
    (hkey : ∀ c ∈ key, c ≠ rbrace) :
    (ParseTemplate (openTok ++ sp1 ++ key ++ sp2 ++ closeTok)).Interpreter ctx =
      (ParseTemplate (openTok ++ key ++ closeTok)).Interpreter ctx ∧
      (ParseTemplate (openTok ++ sp1 ++ key ++ sp2 ++ closeTok)).tree =
        [Node.text [], Node.var (goTrimSpace (sp1 ++ key ++ sp2)), Node.text []] := by
  have hmems : ∀ c ∈ sp1 ++ key ++ sp2, c ≠ rbrace := by
    intro c hc
    rcases List.mem_append.mp hc with hc1 | hc2
    · rcases List.mem_append.mp hc1 with hsp | hk
      · exact space_ne_rbrace c (h1 c hsp)
      · exact hkey c hk
    · exact space_ne_rbrace c (h2 c hc2)
  have hnil : (ParseTemplate ([] : List Char)).tree = [Node.text []] := by decide
  have hshape1 : openTok ++ sp1 ++ key ++ sp2 ++ closeTok =
      openTok ++ (sp1 ++ key ++ sp2) ++ closeTok ++ [] := by
    simp [List.append_assoc]
  have hshape2 : openTok ++ key ++ closeTok = openTok ++ key ++ closeTok ++ [] := by
    simp
  have t1 : (ParseTemplate (openTok ++ sp1 ++ key ++ sp2 ++ closeTok)).tree =
      [Node.text [], Node.var (goTrimSpace (sp1 ++ key ++ sp2)), Node.text []] := by
    rw [hshape1, parse_marker (sp1 ++ key ++ sp2) [] hmems, hnil]
  have t2 : (ParseTemplate (openTok ++ key ++ closeTok)).tree =
      [Node.text [], Node.var (goTrimSpace key), Node.text []] := by
    rw [hshape2, parse_marker key [] hkey, hnil]
  refine ⟨?_, t1⟩
  have r1 : (ParseTemplate (openTok ++ sp1 ++ key ++ sp2 ++ closeTok)).Interpreter ctx =
      Template.Interpreter
        ⟨[Node.text [], Node.var (goTrimSpace (sp1 ++ key ++ sp2)), Node.text []]⟩ ctx := by
    unfold Template.Interpreter
    rw [t1]
  have r2 : (ParseTemplate (openTok ++ key ++ closeTok)).Interpreter ctx =
      Template.Interpreter
        ⟨[Node.text [], Node.var (goTrimSpace key), Node.text []]⟩ ctx := by
    unfold Template.Interpreter
    rw [t2]
  rw [r1, r2, trim_absorb sp1 sp2 key h1 h2]

/-- C6 witness: the equivalence evaluated at the key `name` with single
surrounding spaces and a context binding `name`. -/
theorem claim_C6_witness :
    (ParseTemplate (openTok ++ [' '] ++ "name".data ++ [' '] ++ closeTok)).Interpreter ctxW6 =
      (ParseTemplate (openTok ++ "name".data ++ closeTok)).Interpreter ctxW6 ∧
      (ParseTemplate (openTok ++ [' '] ++ "name".data ++ [' '] ++ closeTok)).tree =
        [Node.text [], Node.var (goTrimSpace ([' '] ++ "name".data ++ [' '])),
          Node.text []] :=
  claim_C6_whitespace_trim [' '] [' '] "name".data ctxW6
    (by decide) (by decide) (by decide)

/-- The scan on an input containing an unmatched open token: some unmatched
open token position `i` exists such that parsing behaves exactly as if the
input were truncated at `i` — everything from the unmatched open token to
the end of the input is dropped — and the output ends with the literal
preceding that open token. -/
lemma parse_unmatched : ∀ (n : Nat) (s : List Char), s.length < n →
    (∃ i, unmatchedAt s i) →
    ∃ i, unmatchedAt s i ∧
      (ParseTemplate s).tree = (ParseTemplate (s.take i)).tree ∧
      ∃ l pre, (ParseTemplate s).tree = l ++ [Node.text pre] := by
  intro n
  induction n with
  | zero => intro s h _; omega
  | succ n ih =>
    rintro s hlen ⟨i0, hop0, hcl0⟩
    cases hop : strIndex s openTok with
    | none =>
      exact absurd hop0 (by simp [strIndex_none s openTok hop i0])
    | some st =>
      cases hcl : strIndex (s.drop st) closeTok with
      | none =>
        have hclose : ∀ j < s.length, st < j → occursAt closeTok s j = false := by
          intro j hjlen hjgt
          have hnone := strIndex_none (s.drop st) closeTok hcl (j - st)
          rw [occ_drop s closeTok st (j - st)] at hnone
          have harith : st + (j - st) = j := by omega
          rw [harith] at hnone
          exact hnone
        have hnoopen : strIndex (s.take st) openTok = none := by
          cases hs2 : strIndex (s.take st) openTok with
          | none => rfl
          | some p =>
            exfalso
            have hocc := strIndex_occ (s.take st) openTok p hs2
            have hocc2 := occ_of_occ_take s openTok st p hocc
            have hple := occ_add_length_le (s.take st) openTok p
              (by simp [openTok]) hocc
            have htlen : (s.take st).length ≤ st := by
              rw [List.length_take]
              omega
            have hplt : p < st := by
              simp only [openTok, List.length_cons, List.length_nil] at hple
              omega
            exact absurd hocc2 (by simp [strIndex_least s openTok st hop p hplt])
        refine ⟨st, ⟨strIndex_occ s openTok st hop, hclose⟩, ?_, [], s.take st,
          parse_no_close s st hop hcl⟩
        rw [parse_no_close s st hop hcl, parse_no_open (s.take st) hnoopen]
      | some en =>
        obtain ⟨hen, hlen2⟩ := strIndex_close_ge_two s st en hop hcl
        have hdrop : (s.drop (st + en + 2)).length = s.length - (st + en + 2) :=
          List.length_drop (st + en + 2) s
        have hcocc : occursAt closeTok s (st + en) = true := by
          have hx := strIndex_occ (s.drop st) closeTok en hcl
          rw [occ_drop s closeTok st en] at hx
          exact hx
        have hi0 : st + en + 2 ≤ i0 := by
          by_contra hlt
          push_neg at hlt
          rcases Nat.lt_trichotomy i0 (st + en) with hlt2 | heq2 | hgt2
          · have hcltlen : st + en < s.length := by omega
            exact absurd hcocc (by simp [hcl0 (st + en) hcltlen hlt2])
          · obtain ⟨r, hr⟩ := pref_two_shape lbrace lbrace (s.drop i0) hop0
            have hcocc2 : closeTok.isPrefixOf (s.drop i0) = true := by
              rw [heq2]
              exact hcocc
            rw [hr] at hcocc2
            simp only [closeTok, List.isPrefixOf, Bool.and_eq_true, beq_iff_eq] at hcocc2
            exact absurd hcocc2.1 (by decide)
          · have hi0eq : i0 = st + en + 1 := by omega
            obtain ⟨r, hr⟩ := pref_two_shape rbrace rbrace (s.drop (st + en)) hcocc
            have hdrop1 : s.drop (st + en + 1) = rbrace :: r := by
              have hdd : s.drop (st + en + 1) = (s.drop (st + en)).drop 1 := by
                rw [List.drop_drop]
              rw [hdd, hr]
              rfl
            have hop0' : openTok.isPrefixOf (s.drop i0) = true := hop0
            rw [hi0eq, hdrop1] at hop0'
            simp only [openTok, List.isPrefixOf, Bool.and_eq_true, beq_iff_eq] at hop0'
            exact absurd hop0'.1 (by decide)
        have hopen2 : occursAt openTok (s.drop (st + en + 2)) (i0 - (st + en + 2)) = true := by
          rw [occ_drop]
          have harith : st + en + 2 + (i0 - (st + en + 2)) = i0 := by omega
          rw [harith]
          exact hop0
        have hclose2 : ∀ j < (s.drop (st + en + 2)).length,
            i0 - (st + en + 2) < j → occursAt closeTok (s.drop (st + en + 2)) j = false := by
          intro j hjlen hjgt
          rw [occ_drop]
          exact hcl0 (st + en + 2 + j) (by omega) (by omega)
        obtain ⟨i2, ⟨hob2, hcb2⟩, heq2, l2, pre2, htail2⟩ :=
          ih (s.drop (st + en + 2)) (by omega) ⟨i0 - (st + en + 2), hopen2, hclose2⟩
        have hI : st + 2 ≤ st + en + 2 + i2 := by omega
        have hopT : strIndex (s.take (st + en + 2 + i2)) openTok = some st :=
          strIndex_take s openTok (st + en + 2 + i2) st hop
            (by simp only [openTok, List.length_cons, List.length_nil]; omega)
        have hclT : strIndex ((s.take (st + en + 2 + i2)).drop st) closeTok = some en := by
          rw [List.drop_take]
          exact strIndex_take (s.drop st) closeTok (st + en + 2 + i2 - st) en hcl
            (by simp only [closeTok, List.length_cons, List.length_nil]; omega)
        refine ⟨st + en + 2 + i2, ⟨?_, ?_⟩, ?_, ?_⟩
        · rw [occ_drop] at hob2
          exact hob2
        · intro j hjlen hjgt
          have hrel := hcb2 (j - (st + en + 2)) (by omega) (by omega)
          rw [occ_drop] at hrel
          have harith : st + en + 2 + (j - (st + en + 2)) = j := by omega
          rw [harith] at hrel
          exact hrel
        · rw [parse_step s st en hop hcl,
            parse_step (s.take (st + en + 2 + i2)) st en hopT hclT]
          have htext : (s.take (st + en + 2 + i2)).take st = s.take st := by
            rw [List.take_take, Nat.min_eq_left (by omega)]
          have hkeyeq : ((s.take (st + en + 2 + i2)).drop (st + 2)).take (en - 2) =
              (s.drop (st + 2)).take (en - 2) := by
            rw [List.drop_take, List.take_take, Nat.min_eq_left (by omega)]
          have hrest : (s.take (st + en + 2 + i2)).drop (st + en + 2) =
              (s.drop (st + en + 2)).take i2 := by
            rw [List.drop_take]
            have harith : st + en + 2 + i2 - (st + en + 2) = i2 := by omega
            rw [harith]
          rw [htext, hkeyeq, hrest, ← heq2]
        · refine ⟨Node.text (s.take st) ::
            Node.var (goTrimSpace ((s.drop (st + 2)).take (en - 2))) :: l2, pre2, ?_⟩
          rw [parse_step s st en hop hcl, htail2]
          simp

/-- C5: on every input containing an open token with no later close token,
the scan terminates (without any error value — the parser is a total
function), emits the literal text preceding the unmatched open token, and
emits no node for anything from that open token to the end of the input:
the parse result coincides with the parse of the input truncated at the
unmatched open token, and ends with a literal node. -/
theorem claim_C5_unterminated (s : List Char) (h : ∃ i, unmatchedAt s i) :
    ∃ i, unmatchedAt s i ∧
      (ParseTemplate s).tree = (ParseTemplate (s.take i)).tree ∧
      ∃ l pre, (ParseTemplate s).tree = l ++ [Node.text pre] :=
  parse_unmatched (s.length + 1) s (by omega) h

/-- C5 witness: the input `ab{{cd` (unmatched open token at position 2). -/
theorem claim_C5_witness :
    ∃ i, unmatchedAt "ab\x7b\x7bcd".data i ∧
      (ParseTemplate "ab\x7b\x7bcd".data).tree =
        (ParseTemplate ("ab\x7b\x7bcd".data.take i)).tree ∧
      ∃ l pre, (ParseTemplate "ab\x7b\x7bcd".data).tree = l ++ [Node.text pre] :=
  claim_C5_unterminated "ab\x7b\x7bcd".data ⟨2, by decide⟩

/-- C8: the scan terminates on every input (the embedding is a total
function) and the node count — two nodes per loop iteration plus the final
literal — is bounded by the input length, so the number of iterations is
linear in the template length. -/
theorem claim_C8_linear_bound (s : List Char) :
    (ParseTemplate s).tree.length ≤ s.length + 1 :=
  parse_length_le (s.length + 1) s (by omega)

/-- C9: every parse result is non-empty, begins with a literal node,
strictly alternates literal and reference nodes, and ends with a literal
node (which in particular covers the claim's case where the scan does not
end on an unterminated marker). -/
theorem claim_C9_alternation (s : List Char) :
    (ParseTemplate s).tree ≠ [] ∧
      (∃ c l, (ParseTemplate s).tree = Node.text c :: l) ∧
      alt true (ParseTemplate s).tree = true ∧
      (∃ c, (ParseTemplate s).tree.getLast? = some (Node.text c)) := by
  obtain ⟨⟨c, l, hh⟩, ha, hl⟩ := parse_shape (s.length + 1) s (by omega)
  exact ⟨by rw [hh]; simp, ⟨c, l, hh⟩, ha, hl⟩

/-- C10: whenever the close-token search succeeds, its offset from the
open-token start is at least 2 and the marker lies within the string, so
every slice taken by the parser is in bounds; and the parser always
returns a (non-nil) template, here witnessed by a non-empty node list. -/
theorem claim_C10_no_panic (s : List Char) (st en : Nat)
    (hop : strIndex s openTok = some st)
    (hcl : strIndex (s.drop st) closeTok = some en) :
    (2 ≤ en ∧ st + en + 2 ≤ s.length) ∧ (ParseTemplate s).tree ≠ [] := by
  refine ⟨strIndex_close_ge_two s st en hop hcl, ?_⟩
  obtain ⟨⟨c, l, hh⟩, -, -⟩ := parse_shape (s.length + 1) s (by omega)
  rw [hh]
  simp

/-- C10 witness: the bounds evaluated on the concrete template `{{x}}`. -/
theorem claim_C10_witness :
    (2 ≤ 3 ∧ 0 + 3 + 2 ≤ ("\x7b\x7bx\x7d\x7d".data : List Char).length) ∧
      (ParseTemplate "\x7b\x7bx\x7d\x7d".data).tree ≠ [] :=
  claim_C10_no_panic "\x7b\x7bx\x7d\x7d".data 0 3 (by decide) (by decide)
